import Mathlib

/-!
Verification of the distributed-array core of the `heat` repository
(`src/heat/core/signal.py` and `src/heat/core/arithmetics.py`).

The embedding works over exact integer element values (`ℤ`): the spec treats
the local math kernel as a black box with an ideal numeric contract, so value
claims are settled in exact arithmetic.  Element types (dtypes) are tracked
separately by the `HType` enum, mirroring the `.astype` / promotion flow of the
source.  A distributed one-dimensional array is its list of per-rank local
chunks (`List (List ℤ)`), whose concatenation in rank order is the global
array, exactly as the spec's partition invariant states.

Modules of the repository that the claims depend on but that are not under
`src/` (`dndarray.get_halo`, `_operations.__reduce_op`, `manipulations.pad` /
`flip`, `types.promote_types`, `stride_tricks.sanitize_axis`) are modelled from
the spec; each such definition carries a doc comment starting with
`Modelled from the spec:`.
-/

namespace Heat

/-- Errors surfaced by the library (`TypeError` / `ValueError` in the source). -/
inductive HError
  | typeError (msg : String)
  | valueError (msg : String)
deriving DecidableEq

/-- The `mode` argument of `convolve`; `invalid` stands for any other string. -/
inductive CMode
  | full
  | same
  | valid
  | invalid
deriving DecidableEq

/-- Element types of the library (the canonical heat dtypes). -/
inductive HType
  | bool
  | int8
  | int16
  | int32
  | int64
  | float32
  | float64
deriving DecidableEq

/-- Modelled from the spec: the tagged-variant type descriptor capability query
`heat_type_is_inexact` (`types.py` is not under `src/`); the floating types are
the inexact ones. -/
def HType.isInexact : HType → Bool
  | .float32 => true
  | .float64 => true
  | _ => false

/-- Modelled from the spec: the capability query `heat_type_is_exact`; boolean
and integer types are the exact ones. -/
def HType.isExact : HType → Bool
  | .float32 => false
  | .float64 => false
  | _ => true

/-- Width rank of the exact types, used by the promotion table. -/
def HType.intRank : HType → ℕ
  | .bool => 0
  | .int8 => 1
  | .int16 => 2
  | .int32 => 3
  | .int64 => 4
  | _ => 0

/-- Modelled from the spec: the external type-promotion service
`types.promote_types` (not under `src/`), following the numpy-style table the
library mirrors: two floats promote to the wider float, two exact types to the
wider exact type, and a mixed pair goes to `float32` for narrow integers and to
`float64` once the integer has 32 or more bits or the float is `float64`. -/
def promote (a b : HType) : HType :=
  if a = b then a
  else if a.isInexact && b.isInexact then .float64
  else if a.isExact && b.isExact then (if b.intRank ≤ a.intRank then a else b)
  else
    let f := if a.isInexact then a else b
    let i := if a.isInexact then b else a
    if f = .float64 then .float64
    else if 3 ≤ i.intRank then .float64
    else .float32

/-- A local tensor together with its element type. -/
structure TArr where
  dtype : HType
  data : List ℤ
deriving DecidableEq

/-- Sliding-window dot product at offset `i`: the value
`∑ j, x[i+j] * w[j]` with out-of-range reads as `0`. -/
def wsum (x : List ℤ) : List ℤ → ℕ → ℤ
  | [], _ => 0
  | b :: w, i => x.getD i 0 * b + wsum x w (i + 1)

/-- The external local kernel `torch.nn.functional.conv1d` on one-dimensional
data: a valid cross-correlation, output length `x.length + 1 - w.length`. -/
def conv1d (x w : List ℤ) : List ℤ :=
  (List.range (x.length + 1 - w.length)).map (wsum x w)

/-- `L` consecutive window sums starting at offset `s`; the bookkeeping view of
a contiguous slice of `conv1d`. -/
def windows (x w : List ℤ) (s L : ℕ) : List ℤ :=
  (List.range L).map (fun i => wsum x w (s + i))

/-- Modelled from the spec: `manipulations.pad` (not under `src/`) with a
scalar pad width and constant value `0` pads both ends of the array. -/
def padList (p : ℕ) (l : List ℤ) : List ℤ :=
  List.replicate p 0 ++ l ++ List.replicate p 0

/-- The last `k` elements of a list (the trailing boundary slice). -/
def takeEnd (k : ℕ) (l : List ℤ) : List ℤ := l.drop (l.length - k)

/-- Drop the first element when the flag is set (the parity trim of
`signal.py` lines 161-162 and 181-182). -/
def dropIf (b : Bool) (l : List ℤ) : List ℤ := if b then l.drop 1 else l

/-- line 90 of `signal.py`: the halo width is computed from entry `[0][0]` of
the filter's lshape map, by floor halving. -/
def haloSizeOf (vLshape : List ℕ) : ℕ := vLshape.headD 0 / 2

/-- The per-rank array-with-halo views: each rank's local chunk extended by the
last `k` elements of its left neighbour's chunk and the first `k` elements of
its right neighbour's chunk (spec section 4.3); `prev?` holds the left
neighbour's chunk, `none` at rank 0. -/
def haloViews (k : ℕ) : Option (List ℤ) → List (List ℤ) → List (List ℤ)
  | _, [] => []
  | none, [c] => [c]
  | some c₀, [c] => [takeEnd k c₀ ++ c]
  | none, c :: c' :: rest => (c ++ c'.take k) :: haloViews k (some c) (c' :: rest)
  | some c₀, c :: c' :: rest =>
      (takeEnd k c₀ ++ c ++ c'.take k) :: haloViews k (some c) (c' :: rest)

/-- Modelled from the spec: `DNDarray.get_halo` (not under `src/`).  It first
validates the halo width against every rank's local extent and raises a
failure before any message is issued when some extent is smaller; otherwise
every interior rank pair exchanges exactly `k` boundary elements in each
direction.  Returns the number of point-to-point messages sent together with
the per-rank array-with-halo views. -/
def getHalo (k : ℕ) (cs : List (List ℤ)) : ℕ × Except HError (List (List ℤ)) :=
  if cs.any fun c => c.length < k then
    (0, .error (.valueError "halo size larger than local partition size"))
  else
    (2 * (cs.length - 1), .ok (haloViews k none cs))

/-- Per-rank local convolutions of the array-with-halo views (lines 173-182 of
`signal.py`): every rank runs the valid local kernel, and every rank except
rank 0 drops the first output element when `e` (even global filter length)
is set. -/
def convParts (w : List ℤ) (e : Bool) : List (List ℤ) → List (List ℤ)
  | [] => []
  | s :: ss => conv1d s w :: ss.map fun s => dropIf e (conv1d s w)

/-- lines 80-103 of `signal.py`: argument validation and the `(pad_size,
gshape)` computation.  The condition on line 80 is kept exactly as the source
parses it: `(v.is_distributed() and mode == "full") or (mode == "same")`. -/
def convolveParams (N M : ℕ) (vDist : Bool) (mode : CMode) (haloSize : ℕ) :
    Except HError (ℕ × ℕ) :=
  if (vDist && (mode == .full)) || (mode == .same) then
    .error (.typeError "Distributed filter weights only supportes valid mode")
  else if N ≤ M then
    .error (.valueError "Filter size must not be greater than or equal to signal size")
  else if (mode == .same) && (M % 2 == 0) then
    .error (.valueError "Mode same cannot be used with even-sized kernel")
  else
    match mode with
    | .full => .ok (M - 1, M + N - 1)
    | .same => .ok (haloSize, N)
    | .valid => .ok (0, N - M + 1)
    | .invalid => .error (.valueError "Supported modes are full, valid, same")

/-- `convolve` on a single process (signal not distributed): lines 76-105 and
the local branch of lines 173-192.  The communicator rank is 0, so no parity
trim applies, and the result is cast back to the promoted type. -/
def convolveSingle (a v : TArr) (mode : CMode) : Except HError TArr :=
  let pt := promote a.dtype v.dtype
  let N := a.data.length
  let M := v.data.length
  let halo := haloSizeOf [M]
  match convolveParams N M false mode halo with
  | .error e => .error e
  | .ok pg =>
      let signal := padList pg.1 a.data
      let w := v.data.reverse
      .ok ⟨pt, conv1d signal w⟩

/-- Append the pad block to the last chunk (the trailing end of the global
array lives on the highest rank). -/
def padEnd (p : ℕ) : List (List ℤ) → List (List ℤ)
  | [] => []
  | [c] => [c ++ List.replicate p 0]
  | c :: c' :: rest => c :: padEnd p (c' :: rest)

/-- Modelled from the spec: distribution of `manipulations.pad` (not under
`src/`) for a split array — the pad blocks are attached locally on the ranks
owning the two ends of the split axis. -/
def padChunks (p : ℕ) : List (List ℤ) → List (List ℤ)
  | [] => []
  | c :: rest => padEnd p ((List.replicate p 0 ++ c) :: rest)

/-- line 108 of `signal.py`: the rank-wise comparison
`(v.lshape_map[:, 0] > a.lshape_map[:, 0]).any()`. -/
def lshapeAnyGt (vLshape aLshape : List ℕ) : Bool :=
  (List.zip vLshape aLshape).any fun q => q.2 < q.1

/-- `convolve` with a distributed signal and a non-distributed filter: the
halo-exchange path of lines 105-138 followed by the local branch of lines
173-192.  `parts` lists the signal's local chunks in rank order; a
non-distributed filter means every rank's filter lshape entry is the global
filter length.  Returns the gathered (rank-order concatenated) result values
and the result element type. -/
def convolveDist (parts : List (List ℤ)) (adt : HType) (v : TArr) (mode : CMode) :
    Except HError (List ℤ × HType) :=
  let pt := promote adt v.dtype
  let N := (parts.map List.length).sum
  let M := v.data.length
  let vLshape := List.replicate parts.length M
  let halo := haloSizeOf vLshape
  match convolveParams N M false mode halo with
  | .error e => .error e
  | .ok pg =>
      let pparts := padChunks pg.1 parts
      if lshapeAnyGt vLshape (pparts.map List.length) then
        .error (.valueError "Local chunk of filter weight is larger than the local chunks of signal")
      else
        match (getHalo halo pparts).2 with
        | .error e => .error e
        | .ok views =>
            let w := v.data.reverse
            .ok ((convParts w (M % 2 == 0) views).flatten, pt)

/-- The canonical even-split extents: `N / p` per rank, with the remainder
distributed one extra element each to the lowest ranks (spec section 4.6). -/
def canonicalSizes (N p : ℕ) : List ℕ :=
  (List.range p).map fun r => N / p + if r < N % p then 1 else 0

/-- Cut a list into consecutive chunks of the given sizes. -/
def splitBySizes : List ℕ → List ℤ → List (List ℤ)
  | [], _ => []
  | s :: ss, l => l.take s :: splitBySizes ss (l.drop s)

/-- The canonical balanced distribution of a global list over `p` ranks. -/
def canonicalChunks (p : ℕ) (l : List ℤ) : List (List ℤ) :=
  splitBySizes (canonicalSizes l.length p) l

/-- The successive values of `start_idx` in the loop of lines 167-170: row 0
starts at 0, and after row `o` the start advances by the flipped filter's
lshape entry `o+1`. -/
def startIdxs (sizes : List ℕ) : List ℕ :=
  List.scanl (· + ·) 0 (sizes.drop 1)

/-- The recombination of lines 166-171: the pointwise sum over all rows of the
slice `[start_idx : start_idx + gshape]` of each row. -/
def recombine (rows : List (List ℤ)) (starts : List ℕ) (gshape : ℕ) : List ℤ :=
  (List.range gshape).map fun i =>
    ((rows.zip starts).map fun rs => rs.1.getD (rs.2 + i) 0).sum

/-- The result element type of the distributed-filter branch: the accumulator
`array(0)` is an `int64` scalar and every row buffer is created by
`torch.zeros` without a dtype (line 145), hence `float32`; the `p` in-place
additions promote step by step. -/
def distVDtype (p : ℕ) : HType :=
  (List.replicate p HType.float32).foldl promote .int64

/-- `convolve` with both the signal and the filter distributed (the branch of
lines 140-172).  `aparts` / `vparts` are the local chunks in rank order on a
common communicator.  The filter flip (`manipulations.flip`, not under `src/`)
is modelled from the spec as the globally reversed array redistributed by the
canonical balanced policy; each rank's flipped chunk is then left-padded with
zeros to the flipped lshape entry `[0][0]` (lines 123-128).  Every rank
convolves its array-with-halo view with every rank's padded weight chunk
(lines 147-163), row `o` gathering, in rank order, each rank's convolution
with origin rank `o`'s chunk; the rows are then recombined with shifted
starts (lines 165-171). -/
def convolveDistV (aparts : List (List ℤ)) (adt : HType)
    (vparts : List (List ℤ)) (vdt : HType) (mode : CMode) :
    Except HError (List ℤ × HType) :=
  let _pt := promote adt vdt
  let N := (aparts.map List.length).sum
  let M := (vparts.map List.length).sum
  let vLshape := vparts.map List.length
  let halo := haloSizeOf vLshape
  match convolveParams N M true mode halo with
  | .error e => .error e
  | .ok pg =>
      let pparts := padChunks pg.1 aparts
      if lshapeAnyGt vLshape (pparts.map List.length) then
        .error (.valueError "Local chunk of filter weight is larger than the local chunks of signal")
      else
        match (getHalo halo pparts).2 with
        | .error e => .error e
        | .ok views =>
            let fparts := canonicalChunks aparts.length (vparts.flatten).reverse
            let S0 := (fparts.headD []).length
            let tvs := fparts.map fun c => List.replicate (S0 - c.length) 0 ++ c
            let e := S0 % 2 == 0
            let rows := tvs.map fun tv => (convParts tv e views).flatten
            .ok (recombine rows (startIdxs (fparts.map List.length)) pg.2,
                 distVDtype aparts.length)

/-- Window-count bookkeeping for the parity of the kernel length: one exactly
when the kernel length is even. -/
def parityOne (M : ℕ) : ℕ := 1 - M % 2

/-- The value accumulated by the loop of lines 167-170, starting from row list
`us` with current `start_idx` value `b`: each row contributes the entry of its
convolution-with-padded-chunk at its shifted start. -/
def rowTerms (S0 : ℕ) (x : List ℤ) (i : ℕ) : List (List ℤ) → ℕ → ℤ
  | [], _ => 0
  | u :: us, b =>
      (conv1d x (List.replicate (S0 - u.length) 0 ++ u)).getD (b + i) 0
        + rowTerms S0 x i us (b + (us.headD []).length)

/-- One local slicing difference (the `ret[1:] - ret[:-1]` of `diff`): entry
`i` is `l[i+1] - l[i]`, the output being one shorter. -/
def seqDiffOnce (l : List ℤ) : List ℤ := List.zipWith (· - ·) (l.drop 1) l

/-- The n-th discrete difference by iterated slicing (the loop of the
non-distributed branch of `diff`, lines 301-309 of `arithmetics.py`). -/
def seqDiff (n : ℕ) (l : List ℤ) : List ℤ := seqDiffOnce^[n] l

/-- The boundary element sent to the lower-ranked neighbour (line 326). -/
def gfirst (l : List ℤ) : ℤ := l.headD 0

/-- The trailing local element, overwritten by the reconciliation (line 349)
or left stale on the highest rank. -/
def glast (l : List ℤ) : ℤ := l.getLastD 0

/-- One distributed pass of `diff` (the body of the work loop, lines 315-351):
each rank differences its chunk locally in place, and every rank but the last
overwrites its final element with the received neighbour first element minus
that element; the last rank's final element stays stale. -/
def chunkPass : List (List ℤ) → List (List ℤ)
  | [] => []
  | [c] => [seqDiffOnce c ++ [glast c]]
  | c :: c' :: rest => (seqDiffOnce c ++ [gfirst c' - glast c]) :: chunkPass (c' :: rest)

/-- The global effect of one distributed pass: the slicing difference with the
stale final element kept in place. -/
def gpass (l : List ℤ) : List ℤ := seqDiffOnce l ++ [glast l]

/-- One in-place pass on a local fiber whose final element is overwritten with
an arbitrary received value `j` (the layout where the differenced axis is not
the split axis: the reconciliation writes data from another rank's fiber,
discarded by the final trim). -/
def passW (j : ℤ) (l : List ℤ) : List ℤ := seqDiffOnce l ++ [j]

/-- Several such passes, one received value per pass. -/
def passesW : List ℤ → List ℤ → List ℤ
  | [], l => l
  | j :: js, l => passesW js (passW j l)

/-- The distributed branch of `diff` (lines 311-357): `n` passes, then the
global trim of the last `n` elements along the axis (line 353-355), then
`balance_()` restoring the canonical split (line 356). -/
def distDiffChunks (n : ℕ) (cs : List (List ℤ)) : List (List ℤ) :=
  canonicalChunks cs.length
    (((chunkPass^[n] cs).flatten).take ((cs.flatten).length - n))

/-- Modelled from the spec: `stride_tricks.sanitize_axis` (not under `src/`)
for a 1-dimensional shape: axes `-ndim ≤ axis < ndim` are valid, negative
values counting from the end. -/
def sanitizeAxis (ndim : ℕ) (axis : ℤ) : Except HError ℕ :=
  if axis < -(ndim : ℤ) ∨ (ndim : ℤ) ≤ axis then
    .error (.valueError "axis out of range")
  else if axis < 0 then .ok (axis + ndim).toNat
  else .ok axis.toNat

/-- `diff(a, n, axis)` (lines 274-357 of `arithmetics.py`) on a
one-dimensional fiber distributed as the chunk list `cs` (a single chunk when
not distributed).  Returns the number of point-to-point messages sent together
with either the error or a flag telling whether the very input object was
returned (the `n == 0` early return of line 292) and the result chunks. -/
def diffD (cs : List (List ℤ)) (n : ℤ) (axis : ℤ) :
    ℕ × Except HError (Bool × List (List ℤ)) :=
  if n = 0 then (0, .ok (true, cs))
  else if n < 0 then
    (0, .error (.valueError "diff requires that n be a positive number"))
  else
    match sanitizeAxis 1 axis with
    | .error e => (0, .error e)
    | .ok _ =>
      if cs.length ≤ 1 then (0, .ok (false, cs.map (seqDiff n.toNat)))
      else ((cs.length - 1) * n.toNat, .ok (false, distDiffChunks n.toNat cs))

/-- Modelled from the spec: the local reduction kernel of
`_operations.__reduce_op` (not under `src/`) substitutes the operation's
neutral element for a rank whose local partition is empty along the reduced
axis; here for `sum` with neutral element 0 (line 818 of `arithmetics.py`). -/
def localReduceSum (c : List ℤ) : ℤ := if c.isEmpty then 0 else c.sum

/-- Modelled from the spec: the local reduction kernel for `prod` with
neutral element 1 (line 737 of `arithmetics.py`). -/
def localReduceProd (c : List ℤ) : ℤ := if c.isEmpty then 1 else c.prod

/-- Modelled from the spec: `sum` over the split axis — every rank reduces its
local partition, then the partial results are folded by the `MPI.SUM`
all-reduce. -/
def reduceOpSum (cs : List (List ℤ)) : ℤ := (cs.map localReduceSum).sum

/-- Modelled from the spec: `prod` over the split axis with the `MPI.PROD`
all-reduce. -/
def reduceOpProd (cs : List (List ℤ)) : ℤ := (cs.map localReduceProd).prod

/-- Modelled from the spec: `_operations.__binary_op` (not under `src/`)
aligns the operands and runs the local kernel; the alignment exchanges data,
counted as one communication round, and the result takes the promoted type. -/
def binaryOp (t1 t2 : HType) : ℕ × Except HError HType :=
  (1, .ok (promote t1 t2))

/-- lines 110-116 of `arithmetics.py`: the dtype guard of `bitwise_and`. -/
def bitwise_and (t1 t2 : HType) : ℕ × Except HError HType :=
  if t1.isInexact || t2.isInexact then
    (0, .error (.typeError "Operation is not supported for float types"))
  else binaryOp t1 t2

/-- lines 154-160: the dtype guard of `bitwise_or`. -/
def bitwise_or (t1 t2 : HType) : ℕ × Except HError HType :=
  if t1.isInexact || t2.isInexact then
    (0, .error (.typeError "Operation is not supported for float types"))
  else binaryOp t1 t2

/-- lines 193-199: the dtype guard of `bitwise_xor`. -/
def bitwise_xor (t1 t2 : HType) : ℕ × Except HError HType :=
  if t1.isInexact || t2.isInexact then
    (0, .error (.typeError "Operation is not supported for float types"))
  else binaryOp t1 t2

/-- lines 511-517: the dtype guard of `left_shift`. -/
def left_shift (t1 t2 : HType) : ℕ × Except HError HType :=
  if t1.isInexact || t2.isInexact then
    (0, .error (.typeError "Operation is not supported for float types"))
  else binaryOp t1 t2

/-- lines 688-694: the dtype guard of `right_shift`, phrased in the source
through `heat_type_is_exact`. -/
def right_shift (t1 t2 : HType) : ℕ × Except HError HType :=
  if !t1.isExact || !t2.isExact then
    (0, .error (.typeError "Operation is supported for integer types only"))
  else binaryOp t1 t2

/-- lines 480-485: the dtype guard of `invert`; the local operation performs
no communication and keeps the input type (`no_cast=True`). -/
def invert (t : HType) : ℕ × Except HError HType :=
  if t.isInexact then
    (0, .error (.typeError "Operation is not supported for float types"))
  else (0, .ok t)

/-- The left neighbour's chunk of rank `r` (empty at rank 0). -/
def prevChunk (cs : List (List ℤ)) : ℕ → List ℤ
  | 0 => []
  | r + 1 => cs.getD r []

/-- The right neighbour's chunk of rank `r` (empty at the last rank). -/
def nextChunk (cs : List (List ℤ)) (r : ℕ) : List ℤ := cs.getD (r + 1) []

theorem wsum_append (x u v : List ℤ) (i : ℕ) :
    wsum x (u ++ v) i = wsum x u i + wsum x v (i + u.length) := by
  induction u generalizing i with
  | nil => simp [wsum]
  | cons b u ih =>
    simp only [List.cons_append, wsum, List.length_cons, List.append_eq]
    rw [ih (i + 1)]
    have h : i + 1 + u.length = i + (u.length + 1) := by omega
    rw [h]
    ring

theorem wsum_replicate_zero (x : List ℤ) (m i : ℕ) :
    wsum x (List.replicate m 0) i = 0 := by
  induction m generalizing i with
  | zero => simp [wsum]
  | succ m ih => simp [List.replicate_succ, wsum, ih]

theorem wsum_zeroPad (x u : List ℤ) (m i : ℕ) :
    wsum x (List.replicate m 0 ++ u) i = wsum x u (i + m) := by
  rw [wsum_append, wsum_replicate_zero]
  simp

theorem wsum_segment (x w : List ℤ) (s t i : ℕ) (_hst : s + t ≤ x.length)
    (hit : i + w.length ≤ t) :
    wsum ((x.drop s).take t) w i = wsum x w (s + i) := by
  induction w generalizing i with
  | nil => simp [wsum]
  | cons b w ih =>
    have hi : i < t := by simp only [List.length_cons] at hit; omega
    have h1 : ((x.drop s).take t).getD i 0 = x.getD (s + i) 0 := by
      rw [List.getD_eq_getElem?_getD, List.getD_eq_getElem?_getD,
        List.getElem?_take_of_lt hi, List.getElem?_drop]
    have h2 : (i + 1) + w.length ≤ t := by simp only [List.length_cons] at hit; omega
    have h3 : s + (i + 1) = s + i + 1 := by omega
    simp only [wsum, h1, ih (i + 1) h2, h3]

theorem conv1d_eq_windows (x w : List ℤ) :
    conv1d x w = windows x w 0 (x.length + 1 - w.length) := by
  unfold conv1d windows
  apply List.map_congr_left
  intro i _
  rw [Nat.zero_add]

theorem windows_append (x w : List ℤ) (s L₁ L₂ : ℕ) :
    windows x w s (L₁ + L₂) = windows x w s L₁ ++ windows x w (s + L₁) L₂ := by
  unfold windows
  rw [List.range_add, List.map_append, List.map_map]
  congr 1
  apply List.map_congr_left
  intro i _
  simp only [Function.comp_apply]
  congr 1
  omega

theorem windows_drop_one (x w : List ℤ) (s L : ℕ) :
    (windows x w s (L + 1)).drop 1 = windows x w (s + 1) L := by
  have h : L + 1 = 1 + L := by omega
  rw [h, windows_append]
  have h1 : windows x w s 1 = [wsum x w (s + 0)] := by
    unfold windows
    simp [List.range_succ]
  rw [h1]
  simp

theorem windows_congr (x w : List ℤ) (s s' L L' : ℕ) (hs : s = s') (hL : L = L') :
    windows x w s L = windows x w s' L' := by rw [hs, hL]

theorem length_take_eq (l : List ℤ) (n : ℕ) (h : n ≤ l.length) :
    (l.take n).length = n := by simp; omega

theorem conv1d_segment (x w : List ℤ) (s t : ℕ) (hst : s + t ≤ x.length) :
    conv1d ((x.drop s).take t) w = windows x w s (t + 1 - w.length) := by
  have hlen : ((x.drop s).take t).length = t := by simp; omega
  unfold conv1d windows
  rw [hlen]
  apply List.map_congr_left
  intro i hi
  rw [List.mem_range] at hi
  exact wsum_segment x w s t i hst (by omega)

theorem takeEnd_length (c : List ℤ) (k : ℕ) (hk : k ≤ c.length) :
    (takeEnd k c).length = k := by simp [takeEnd]; omega

theorem drop_at_takeEnd (g c₀ tail : List ℤ) (k : ℕ) (hk : k ≤ c₀.length) :
    ((g ++ c₀) ++ tail).drop (g.length + c₀.length - k) = takeEnd k c₀ ++ tail := by
  rw [List.drop_append_eq_append_drop]
  have h1 : (g ++ c₀).drop (g.length + c₀.length - k) = takeEnd k c₀ := by
    rw [List.drop_append_eq_append_drop]
    have hg : g.drop (g.length + c₀.length - k) = [] := List.drop_eq_nil_of_le (by omega)
    have harg : g.length + c₀.length - k - g.length = c₀.length - k := by omega
    rw [hg, harg]
    simp [takeEnd]
  have h2 : g.length + c₀.length - k - (g ++ c₀).length = 0 := by
    simp only [List.length_append]
    omega
  rw [h1, h2]
  simp

theorem take_append_exact (u t : List ℤ) (m : ℕ) :
    (u ++ t).take (u.length + m) = u ++ t.take m := by
  rw [List.take_append_eq_append_take]
  have h1 : u.take (u.length + m) = u := List.take_of_length_le (by omega)
  have h2 : u.length + m - u.length = m := by omega
  rw [h1, h2]

theorem take_into_head (c' rest : List ℤ) (k : ℕ) (hk : k ≤ c'.length) :
    (c' ++ rest).take k = c'.take k := by
  rw [List.take_append_eq_append_take]
  have h : k - c'.length = 0 := by omega
  rw [h]
  simp



theorem dropIf_windows (x w : List ℤ) (s L : ℕ) (hL : w.length % 2 = 0 → 1 ≤ L) :
    dropIf (w.length % 2 == 0) (windows x w s L)
      = windows x w (s + parityOne w.length) (L - parityOne w.length) := by
  rcases Nat.mod_two_eq_zero_or_one w.length with hp | hp
  · have hL1 : 1 ≤ L := hL hp
    have h : L = (L - 1) + 1 := by omega
    rw [h]
    simp only [dropIf, hp, beq_self_eq_true, if_true]
    rw [windows_drop_one]
    exact windows_congr _ _ _ _ _ _ (by simp only [parityOne, hp])
      (by simp only [parityOne, hp]; omega)
  · have hb : (w.length % 2 == 0) = false := by simp [hp]
    rw [hb]
    simp only [dropIf, Bool.false_eq_true, if_false]
    exact windows_congr _ _ _ _ _ _ (by simp only [parityOne, hp]; omega)
      (by simp only [parityOne, hp]; omega)

theorem windows_glue (x w : List ℤ) (a L₁ b L₂ L : ℕ) (hb : b = a + L₁)
    (hL : L = L₁ + L₂) :
    windows x w a L₁ ++ windows x w b L₂ = windows x w a L := by
  subst hb
  subst hL
  exact (windows_append x w a L₁ L₂).symm

/-- The gathered local outputs of all ranks after rank 0, each one the valid
convolution of its array-with-halo view trimmed by the parity rule, are
exactly the global windows starting right after the previous ranks' output. -/
theorem gather_some (w : List ℤ) (hw : 1 ≤ w.length) :
    ∀ (cs : List (List ℤ)) (g c₀ : List ℤ),
      (∀ c ∈ cs, w.length / 2 ≤ c.length) → w.length / 2 ≤ c₀.length →
      ((haloViews (w.length / 2) (some c₀) cs).map
          fun sg => dropIf (w.length % 2 == 0) (conv1d sg w)).flatten
        = windows ((g ++ c₀) ++ cs.flatten) w
            (g.length + c₀.length - w.length / 2 + parityOne w.length)
            ((cs.map List.length).sum - w.length / 2) := by
  intro cs
  induction cs with
  | nil =>
    intro g c₀ _ _
    simp [haloViews, windows]
  | cons c cs ih =>
    intro g c₀ hcs hc₀
    have hM2 : 2 * (w.length / 2) + w.length % 2 = w.length := Nat.div_add_mod w.length 2
    have hc : w.length / 2 ≤ c.length := hcs c (by simp)
    cases cs with
    | nil =>
      -- the last rank: left halo only
      simp only [haloViews, List.map_cons, List.map_nil, List.flatten_cons,
        List.flatten_nil, List.append_nil, List.sum_cons, List.sum_nil, Nat.add_zero]
      have hseg : takeEnd (w.length / 2) c₀ ++ c
          = (((g ++ c₀) ++ c).drop (g.length + c₀.length - w.length / 2)).take
              (w.length / 2 + c.length) := by
        rw [drop_at_takeEnd _ _ _ _ hc₀]
        rw [List.take_of_length_le (by
          simp only [List.length_append, takeEnd_length c₀ _ hc₀]
          omega)]
      rw [hseg, conv1d_segment _ _ _ _ (by
        simp only [List.length_append]
        omega)]
      rw [dropIf_windows _ _ _ _ (by intro hp; omega)]
      exact windows_congr _ _ _ _ _ _ rfl (by
        simp only [parityOne]
        omega)
    | cons c' cs' =>
      -- an interior rank: halos on both sides
      have hc' : w.length / 2 ≤ c'.length := hcs c' (by simp)
      simp only [haloViews, List.map_cons, List.flatten_cons, List.sum_cons]
      have hseg : takeEnd (w.length / 2) c₀ ++ c ++ c'.take (w.length / 2)
          = (((g ++ c₀) ++ (c ++ (c' ++ cs'.flatten))).drop
              (g.length + c₀.length - w.length / 2)).take
              (w.length / 2 + c.length + w.length / 2) := by
        rw [drop_at_takeEnd _ _ _ _ hc₀]
        have h1 : w.length / 2 + c.length + w.length / 2
            = (takeEnd (w.length / 2) c₀).length + (c.length + w.length / 2) := by
          rw [takeEnd_length c₀ _ hc₀]
          omega
        rw [h1, take_append_exact, take_append_exact, take_into_head _ _ _ hc',
          List.append_assoc]
      rw [hseg, conv1d_segment _ _ _ _ (by
        simp only [List.length_append]
        omega)]
      rw [dropIf_windows _ _ _ _ (by intro hp; omega)]
      rw [ih (g ++ c₀) c (fun d hd => hcs d (by simp [hd])) hc]
      have hx2 : ((g ++ c₀) ++ c) ++ (c' :: cs').flatten
          = (g ++ c₀) ++ (c ++ (c' ++ cs'.flatten)) := by
        simp [List.flatten_cons]
      rw [hx2]
      exact windows_glue _ _ _ _ _ _ _
        (by
          simp only [parityOne, List.length_append]
          omega)
        (by
          simp only [parityOne, List.map_cons, List.sum_cons]
          omega)

/-- Gathering all ranks' local outputs (rank 0 untrimmed, later ranks trimmed
by the parity rule) yields exactly the sequential valid convolution of the
concatenated global signal, for any partition whose local extents are at
least the halo width. -/
theorem gather_all (w : List ℤ) (hw : 1 ≤ w.length) (cs : List (List ℤ))
    (hcs : ∀ c ∈ cs, w.length / 2 ≤ c.length) :
    (convParts w (w.length % 2 == 0) (haloViews (w.length / 2) none cs)).flatten
      = conv1d cs.flatten w := by
  have hM2 : 2 * (w.length / 2) + w.length % 2 = w.length := Nat.div_add_mod w.length 2
  cases cs with
  | nil =>
    simp only [haloViews, convParts, List.flatten_nil]
    unfold conv1d
    have h : List.length ([] : List ℤ) + 1 - w.length = 0 := by simp; omega
    rw [h]
    simp
  | cons c cs =>
    have hc : w.length / 2 ≤ c.length := hcs c (by simp)
    cases cs with
    | nil =>
      simp only [haloViews, convParts, List.map_nil, List.flatten_cons,
        List.flatten_nil, List.append_nil]
    | cons c' cs' =>
      have hc' : w.length / 2 ≤ c'.length := hcs c' (by simp)
      simp only [haloViews, convParts, List.flatten_cons]
      have hseg : c ++ c'.take (w.length / 2)
          = (((c ++ (c' ++ cs'.flatten)) : List ℤ).drop 0).take
              (c.length + w.length / 2) := by
        rw [List.drop_zero, take_append_exact, take_into_head _ _ _ hc']
      rw [hseg, conv1d_segment _ _ _ _ (by
        simp only [List.length_append]
        omega)]
      have hsome := gather_some w hw (c' :: cs') [] c
        (fun d hd => hcs d (by simp at hd ⊢; tauto)) hc
      simp only [List.nil_append, List.length_nil, List.flatten_cons, Nat.zero_add,
        List.map_cons, List.sum_cons] at hsome
      rw [hsome]
      rw [conv1d_eq_windows]
      exact windows_glue _ _ _ _ _ _ _
        (by
          simp only [parityOne]
          omega)
        (by
          simp only [parityOne, List.length_append, List.length_flatten]
          omega)

theorem convolveParams_halo_irrel (N M : ℕ) (vDist : Bool) (mode : CMode) (h₁ h₂ : ℕ) :
    convolveParams N M vDist mode h₁ = convolveParams N M vDist mode h₂ := by
  cases mode <;> simp [convolveParams]

theorem padEnd_flatten (p : ℕ) (cs : List (List ℤ)) (h : cs ≠ []) :
    (padEnd p cs).flatten = cs.flatten ++ List.replicate p 0 := by
  induction cs with
  | nil => exact absurd rfl h
  | cons c cs ih =>
    cases cs with
    | nil => simp [padEnd]
    | cons c' cs' =>
      simp only [padEnd, List.flatten_cons, ih (by simp), List.append_assoc]

theorem padChunks_flatten (p : ℕ) (cs : List (List ℤ)) (h : cs ≠ []) :
    (padChunks p cs).flatten = padList p cs.flatten := by
  cases cs with
  | nil => exact absurd rfl h
  | cons c cs =>
    unfold padChunks padList
    rw [padEnd_flatten p _ (by simp)]
    simp [List.append_assoc]

theorem padEnd_length (p : ℕ) (cs : List (List ℤ)) : (padEnd p cs).length = cs.length := by
  induction cs with
  | nil => rfl
  | cons c cs ih =>
    cases cs with
    | nil => rfl
    | cons c' cs' => simpa [padEnd] using ih

theorem padChunks_length (p : ℕ) (cs : List (List ℤ)) :
    (padChunks p cs).length = cs.length := by
  cases cs with
  | nil => rfl
  | cons c cs => simpa [padChunks] using padEnd_length p ((List.replicate p 0 ++ c) :: cs)

theorem lshapeAnyGt_replicate (M : ℕ) (ls : List ℕ) :
    lshapeAnyGt (List.replicate ls.length M) ls = false ↔ ∀ x ∈ ls, M ≤ x := by
  induction ls with
  | nil => simp [lshapeAnyGt]
  | cons x ls ih =>
    simp only [List.length_cons, List.replicate_succ, lshapeAnyGt, List.zip_cons_cons,
      List.any_cons, Bool.or_eq_false_iff, List.mem_cons, decide_eq_false_iff_not,
      Nat.not_lt] at ih ⊢
    constructor
    · rintro ⟨h1, h2⟩ y (rfl | hy)
      · omega
      · exact (ih.mp h2) y hy
    · intro h
      refine ⟨by have := h x (Or.inl rfl); omega, ih.mpr fun y hy => h y (Or.inr hy)⟩

theorem convolveParams_ok_lt (N M : ℕ) (d : Bool) (mode : CMode) (h : ℕ)
    (pg : ℕ × ℕ) (hok : convolveParams N M d mode h = .ok pg) : M < N := by
  unfold convolveParams at hok
  split at hok
  · exact absurd hok (by simp)
  · split at hok
    · exact absurd hok (by simp)
    · omega

theorem haloSizeOf_replicate (p M : ℕ) (hp : p ≠ 0) :
    haloSizeOf (List.replicate p M) = M / 2 := by
  cases p with
  | zero => exact absurd rfl hp
  | succ p => simp [haloSizeOf, List.replicate_succ]

/-- Refinement of the distributed-signal, replicated-filter path: whenever the
call returns, the gathered result equals the single-process result on the same
global data, with the same element type. -/
theorem convolveDist_refines (parts : List (List ℤ)) (adt : HType) (v : TArr)
    (mode : CMode) (res : List ℤ) (dt : HType) (hw : 1 ≤ v.data.length)
    (hout : convolveDist parts adt v mode = .ok (res, dt)) :
    convolveSingle ⟨adt, parts.flatten⟩ v mode = .ok ⟨dt, res⟩ := by
  simp only [convolveDist] at hout
  split at hout
  · exact absurd hout (by simp)
  · rename_i pg heq
    have hMN := convolveParams_ok_lt _ _ _ _ _ _ heq
    have hparts : parts ≠ [] := by
      intro hnil
      rw [hnil] at hMN
      simp at hMN
    split at hout
    · exact absurd hout (by simp)
    · rename_i hchk
      split at hout
      · exact absurd hout (by simp)
      · rename_i views hv
        simp only [Except.ok.injEq, Prod.mk.injEq] at hout
        obtain ⟨hres, hdt⟩ := hout
        have hcf : lshapeAnyGt (List.replicate parts.length v.data.length)
            ((padChunks pg.1 parts).map List.length) = false := by
          simpa using hchk
        have hlen : ((padChunks pg.1 parts).map List.length).length = parts.length := by
          rw [List.length_map, padChunks_length]
        rw [← hlen] at hcf
        have h2 := (lshapeAnyGt_replicate _ _).mp hcf
        have hchunk : ∀ c ∈ padChunks pg.1 parts, v.data.length ≤ c.length :=
          fun c hc => h2 c.length (List.mem_map_of_mem List.length hc)
        have hviews : views = haloViews
            (haloSizeOf (List.replicate parts.length v.data.length)) none
            (padChunks pg.1 parts) := by
          unfold getHalo at hv
          split at hv
          · exact absurd hv (by simp)
          · simp only [Except.ok.injEq] at hv
            exact hv.symm
        simp only [convolveSingle, List.length_flatten]
        rw [convolveParams_halo_irrel _ _ _ _ (haloSizeOf [v.data.length])
          (haloSizeOf (List.replicate parts.length v.data.length)), heq]
        simp only [Except.ok.injEq, TArr.mk.injEq]
        refine ⟨hdt, ?_⟩
        rw [← hres, hviews]
        have hk : haloSizeOf (List.replicate parts.length v.data.length)
            = v.data.reverse.length / 2 := by
          rw [haloSizeOf_replicate _ _ (fun h0 => hparts (List.length_eq_zero.mp h0)),
            List.length_reverse]
        have he : (v.data.length % 2 == 0) = (v.data.reverse.length % 2 == 0) := by
          rw [List.length_reverse]
        rw [hk, he, gather_all v.data.reverse (by rw [List.length_reverse]; exact hw)
          (padChunks pg.1 parts) (fun c hc => by
            have := hchunk c hc
            rw [List.length_reverse]
            omega)]
        rw [padChunks_flatten _ _ hparts]

theorem range_map_sum_const_ite (q m n : ℕ) (h : n ≤ m) :
    ((List.range n).map fun r => q + if r < m then 1 else 0).sum = n * (q + 1) := by
  induction n with
  | zero => simp
  | succ n ih =>
    rw [List.range_succ, List.map_append, List.sum_append, ih (by omega)]
    have hn : n < m := by omega
    simp only [List.map_cons, List.map_nil, List.sum_cons, List.sum_nil, if_pos hn]
    ring

theorem range_map_sum_ite (q m n : ℕ) (h : m ≤ n) :
    ((List.range n).map fun r => q + if r < m then 1 else 0).sum = n * q + m := by
  induction n with
  | zero =>
    have : m = 0 := by omega
    simp [this]
  | succ n ih =>
    rcases Nat.lt_or_ge n m with hn | hn
    · have hm : m = n + 1 := by omega
      rw [range_map_sum_const_ite q m (n + 1) (by omega), hm]
      ring
    · rw [List.range_succ, List.map_append, List.sum_append, ih (by omega)]
      simp only [List.map_cons, List.map_nil, List.sum_cons, List.sum_nil,
        if_neg (by omega : ¬ n < m)]
      ring

theorem canonicalSizes_sum (N p : ℕ) (hp : 1 ≤ p) : (canonicalSizes N p).sum = N := by
  unfold canonicalSizes
  rw [range_map_sum_ite _ _ _ (le_of_lt (Nat.mod_lt N (by omega)))]
  have := Nat.div_add_mod N p
  omega

theorem canonicalSizes_length (N p : ℕ) : (canonicalSizes N p).length = p := by
  simp [canonicalSizes]

theorem canonicalSizes_headD (N p : ℕ) (hp : 1 ≤ p) :
    (canonicalSizes N p).headD 0 = N / p + if 0 < N % p then 1 else 0 := by
  cases p with
  | zero => omega
  | succ p => simp [canonicalSizes, List.range_succ_eq_map]

theorem canonicalSizes_le_headD (N p : ℕ) (hp : 1 ≤ p) :
    ∀ s ∈ canonicalSizes N p, s ≤ (canonicalSizes N p).headD 0 := by
  rw [canonicalSizes_headD N p hp]
  intro s hs
  simp only [canonicalSizes, List.mem_map, List.mem_range] at hs
  obtain ⟨r, _, rfl⟩ := hs
  split_ifs <;> omega

theorem canonicalSizes_headD_pos (N p : ℕ) (hp : 1 ≤ p) (hN : 1 ≤ N) :
    1 ≤ (canonicalSizes N p).headD 0 := by
  rw [canonicalSizes_headD N p hp]
  split_ifs with h
  · exact Nat.le_add_left 1 (N / p)
  · have hd : N % p = 0 := by omega
    have hle : p ≤ N := Nat.le_of_dvd (by omega) (Nat.dvd_of_mod_eq_zero hd)
    have h2 := Nat.div_pos hle (by omega)
    simpa using h2

theorem splitBySizes_flatten (ss : List ℕ) (l : List ℤ) (h : ss.sum = l.length) :
    (splitBySizes ss l).flatten = l := by
  induction ss generalizing l with
  | nil =>
    simp only [List.sum_nil] at h
    simp [splitBySizes, (List.length_eq_zero.mp h.symm)]
  | cons s ss ih =>
    simp only [List.sum_cons] at h
    simp only [splitBySizes, List.flatten_cons]
    rw [ih (l.drop s) (by simp; omega), List.take_append_drop]

theorem splitBySizes_map_length (ss : List ℕ) (l : List ℤ) (h : ss.sum ≤ l.length) :
    (splitBySizes ss l).map List.length = ss := by
  induction ss generalizing l with
  | nil => simp [splitBySizes]
  | cons s ss ih =>
    simp only [List.sum_cons] at h
    simp only [splitBySizes, List.map_cons]
    rw [length_take_eq _ _ (by omega), ih (l.drop s) (by simp; omega)]

theorem canonicalChunks_flatten (p : ℕ) (l : List ℤ) (hp : 1 ≤ p) :
    (canonicalChunks p l).flatten = l :=
  splitBySizes_flatten _ _ (canonicalSizes_sum l.length p hp)

theorem canonicalChunks_map_length (p : ℕ) (l : List ℤ) (hp : 1 ≤ p) :
    (canonicalChunks p l).map List.length = canonicalSizes l.length p :=
  splitBySizes_map_length _ _ (le_of_eq (canonicalSizes_sum l.length p hp))

theorem padChunks_zero (cs : List (List ℤ)) : padChunks 0 cs = cs := by
  cases cs with
  | nil => rfl
  | cons c cs =>
    simp only [padChunks, List.replicate_zero, List.nil_append]
    induction cs generalizing c with
    | nil => simp [padEnd]
    | cons c' cs' ih => simpa [padEnd] using ih c'

theorem padList_zero (l : List ℤ) : padList 0 l = l := by simp [padList]

theorem getHalo_ok (k : ℕ) (cs views : List (List ℤ))
    (h : (getHalo k cs).2 = .ok views) :
    views = haloViews k none cs ∧ ∀ c ∈ cs, k ≤ c.length := by
  unfold getHalo at h
  split at h
  · exact absurd h (by simp)
  · rename_i hany
    simp only [Except.ok.injEq] at h
    refine ⟨h.symm, fun c hc => ?_⟩
    by_contra hlt
    exact hany (List.any_eq_true.mpr ⟨c, hc, by simp; omega⟩)

theorem conv1d_getD (x w : List ℤ) (j : ℕ) (hj : j < x.length + 1 - w.length) :
    (conv1d x w).getD j 0 = wsum x w j := by
  unfold conv1d
  rw [List.getD_eq_getElem?_getD, List.getElem?_map, List.getElem?_range hj]
  rfl


theorem zipSum_eq_rowTerms (S0 : ℕ) (x : List ℤ) (i : ℕ) :
    ∀ (us : List (List ℤ)) (b : ℕ),
      (((us.map fun u => conv1d x (List.replicate (S0 - u.length) 0 ++ u)).zip
          (List.scanl (· + ·) b ((us.map List.length).drop 1))).map
        fun rs => rs.1.getD (rs.2 + i) 0).sum
      = rowTerms S0 x i us b := by
  intro us
  induction us with
  | nil => intro b; simp [rowTerms]
  | cons u us ih =>
    intro b
    cases us with
    | nil => simp [rowTerms]
    | cons u' us' =>
      simp only [List.map_cons, List.drop_succ_cons, List.drop_zero, List.scanl_cons,
        List.singleton_append, List.zip_cons_cons, List.sum_cons, rowTerms,
        List.headD_cons]
      congr 1
      have hrec := ih (b + u'.length)
      simp only [List.map_cons, List.drop_succ_cons, List.drop_zero] at hrec
      exact hrec

theorem rowTerms_eq_wsum (S0 : ℕ) (x : List ℤ) (i : ℕ) (_hS0 : 1 ≤ S0) :
    ∀ (us : List (List ℤ)) (b : ℕ),
      (∀ u ∈ us, u.length ≤ S0) →
      b + (((us.map List.length).drop 1).sum) + i + S0 ≤ x.length →
      rowTerms S0 x i us b = wsum x us.flatten (i + b + (S0 - (us.headD []).length)) := by
  intro us
  induction us with
  | nil =>
    intro b _ _
    simp [rowTerms, wsum]
  | cons u us ih =>
    intro b hle hb
    have hu : u.length ≤ S0 := hle u (by simp)
    have hbx : b + ((us.map List.length).sum) + i + S0 ≤ x.length := hb
    have hhead : (conv1d x (List.replicate (S0 - u.length) 0 ++ u)).getD (b + i) 0
        = wsum x u (b + i + (S0 - u.length)) := by
      rw [conv1d_getD _ _ _ (by
        simp only [List.length_append, List.length_replicate]
        omega)]
      rw [wsum_zeroPad]
    simp only [rowTerms, List.headD_cons, List.flatten_cons, hhead]
    rw [wsum_append]
    have e1 : b + i + (S0 - u.length) = i + b + (S0 - u.length) := by omega
    rw [e1]
    congr 1
    cases us with
    | nil => rfl
    | cons u' us' =>
      have hu' : u'.length ≤ S0 := hle u' (by simp)
      have hby : b + (u'.length + (List.map List.length us').sum) + i + S0 ≤ x.length := hbx
      have hrec := ih (b + u'.length) (fun d hd => hle d (by simp [hd]))
        (show b + u'.length + ((List.map List.length us').sum) + i + S0 ≤ x.length by omega)
      have e0 : b + u'.length = b + ((u' :: us').headD []).length := rfl
      rw [e0] at hrec
      rw [hrec]
      have e2 : i + (b + ((u' :: us').headD []).length) + (S0 - ((u' :: us').headD []).length)
          = i + b + (S0 - u.length) + u.length := by
        simp only [List.headD_cons]
        omega
      rw [e2]

theorem splitBySizes_length (ss : List ℕ) (l : List ℤ) :
    (splitBySizes ss l).length = ss.length := by
  induction ss generalizing l with
  | nil => rfl
  | cons s ss ih => simp [splitBySizes, ih]

theorem headD_length_map (l : List (List ℤ)) (h : l ≠ []) :
    (l.map List.length).headD 0 = (l.headD []).length := by
  cases l with
  | nil => exact absurd rfl h
  | cons c cs => rfl

theorem convolveParams_true_ok (N M : ℕ) (mode : CMode) (h : ℕ) (pg : ℕ × ℕ)
    (hok : convolveParams N M true mode h = .ok pg) :
    mode = .valid ∧ pg.1 = 0 ∧ pg.2 = N - M + 1 ∧ M < N := by
  unfold convolveParams at hok
  split at hok
  · exact absurd hok (by simp)
  · rename_i hc1
    split at hok
    · exact absurd hok (by simp)
    · rename_i hc2
      split at hok
      · exact absurd hok (by simp)
      · cases mode with
        | full => simp at hc1
        | same => simp at hc1
        | valid =>
          simp only [Except.ok.injEq] at hok
          exact ⟨rfl, by rw [← hok], by rw [← hok], by omega⟩
        | invalid => exact absurd hok (by simp)

theorem convolveParams_valid_false (N M : ℕ) (h : ℕ) (hMN : M < N) :
    convolveParams N M false .valid h = .ok (0, N - M + 1) := by
  unfold convolveParams
  rw [if_neg (by simp), if_neg (by omega), if_neg (by simp)]

/-- Recombining the rows (one per filter chunk) with the shifted starts of
lines 166-171 reconstructs the full valid convolution with the whole filter. -/
theorem recombine_eq_conv1d (X W : List ℤ) (p : ℕ) (hp : 1 ≤ p)
    (hW : 1 ≤ W.length) (hMN : W.length < X.length) :
    recombine ((canonicalChunks p W).map fun u =>
        conv1d X (List.replicate
          (((canonicalChunks p W).headD []).length - u.length) 0 ++ u))
      (startIdxs ((canonicalChunks p W).map List.length))
      (X.length - W.length + 1)
      = conv1d X W := by
  have hfsizes : (canonicalChunks p W).map List.length = canonicalSizes W.length p :=
    canonicalChunks_map_length p W hp
  have hfne : canonicalChunks p W ≠ [] := by
    intro h0
    have hl := splitBySizes_length (canonicalSizes W.length p) W
    rw [show canonicalChunks p W
        = splitBySizes (canonicalSizes W.length p) W from rfl] at h0
    rw [h0] at hl
    simp only [List.length_nil, canonicalSizes_length] at hl
    omega
  have hS0 : ((canonicalChunks p W).headD []).length
      = (canonicalSizes W.length p).headD 0 := by
    rw [← headD_length_map _ hfne, hfsizes]
  have hS0pos : 1 ≤ ((canonicalChunks p W).headD []).length := by
    rw [hS0]
    exact canonicalSizes_headD_pos _ _ hp hW
  have hle : ∀ u ∈ canonicalChunks p W,
      u.length ≤ ((canonicalChunks p W).headD []).length := by
    intro u hu
    rw [hS0]
    exact canonicalSizes_le_headD _ _ hp u.length
      (hfsizes ▸ List.mem_map_of_mem List.length hu)
  have hpoint : ∀ i ∈ List.range (X.length - W.length + 1),
      ((((canonicalChunks p W).map fun u =>
          conv1d X (List.replicate
            (((canonicalChunks p W).headD []).length - u.length) 0 ++ u)).zip
        (List.scanl (· + ·) 0 (((canonicalChunks p W).map List.length).drop 1))).map
        fun rs => rs.1.getD (rs.2 + i) 0).sum = wsum X W i := by
    intro i hi
    rw [List.mem_range] at hi
    rw [zipSum_eq_rowTerms]
    have hbound : 0 + ((((canonicalChunks p W).map List.length).drop 1).sum) + i
        + ((canonicalChunks p W).headD []).length ≤ X.length := by
      rw [hfsizes]
      have hsum := canonicalSizes_sum W.length p hp
      have hlen := canonicalSizes_length W.length p
      rcases hcs : canonicalSizes W.length p with _ | ⟨s, t⟩
      · rw [hcs] at hlen
        simp at hlen
        omega
      · rw [hcs] at hsum hS0
        simp only [List.sum_cons] at hsum
        simp only [List.headD_cons] at hS0
        simp only [List.drop_succ_cons, List.drop_zero]
        omega
    rw [rowTerms_eq_wsum _ _ _ hS0pos _ _ hle hbound]
    rw [show i + 0 + (((canonicalChunks p W).headD []).length
        - ((canonicalChunks p W).headD []).length) = i by omega]
    rw [canonicalChunks_flatten p W hp]
  unfold recombine startIdxs
  apply Eq.trans (List.map_congr_left hpoint)
  unfold conv1d
  rw [show X.length - W.length + 1 = X.length + 1 - W.length by omega]

/-- Refinement of the distributed-filter branch (lines 140-172): with the
filter distributed by the canonical balanced policy, whenever the call returns
the gathered and recombined result equals the single-process result on the
same global data, up to the element type settled separately. -/
theorem convolveDistV_refines (aparts : List (List ℤ)) (adt : HType)
    (vparts : List (List ℤ)) (vdt : HType) (mode : CMode) (res : List ℤ) (dt : HType)
    (hcanon : vparts.map List.length
      = canonicalSizes ((vparts.map List.length).sum) aparts.length)
    (hM : 1 ≤ (vparts.map List.length).sum)
    (hout : convolveDistV aparts adt vparts vdt mode = .ok (res, dt)) :
    convolveSingle ⟨adt, aparts.flatten⟩ ⟨vdt, vparts.flatten⟩ mode
      = .ok ⟨promote adt vdt, res⟩ := by
  simp only [convolveDistV] at hout
  split at hout
  · exact absurd hout (by simp)
  · rename_i pg heq
    obtain ⟨hmode, hp1, hp2, hMN⟩ := convolveParams_true_ok _ _ _ _ _ heq
    subst hmode
    have hp : 1 ≤ aparts.length := by
      by_contra hp0
      have : aparts = [] := List.length_eq_zero.mp (by omega)
      rw [this] at hMN
      simp at hMN
    split at hout
    · exact absurd hout (by simp)
    · rename_i hchk
      split at hout
      · exact absurd hout (by simp)
      · rename_i views hv
        simp only [Except.ok.injEq, Prod.mk.injEq] at hout
        obtain ⟨hres, _hdt⟩ := hout
        rw [hp1, padChunks_zero] at hv
        obtain ⟨hviews, hkc⟩ := getHalo_ok _ _ _ hv
        -- abbreviations for the global data
        have hwlen : ((vparts.flatten).reverse).length = (vparts.map List.length).sum := by
          rw [List.length_reverse, List.length_flatten]
        -- the flipped chunk sizes are the canonical ones
        have hfsizes : (canonicalChunks aparts.length ((vparts.flatten).reverse)).map
            List.length = canonicalSizes ((vparts.map List.length).sum) aparts.length := by
          rw [canonicalChunks_map_length _ _ hp, hwlen]
        have hfne : canonicalChunks aparts.length ((vparts.flatten).reverse) ≠ [] := by
          intro h0
          have := splitBySizes_length
            (canonicalSizes (((vparts.flatten).reverse).length) aparts.length)
            ((vparts.flatten).reverse)
          rw [show canonicalChunks aparts.length ((vparts.flatten).reverse)
              = splitBySizes (canonicalSizes (((vparts.flatten).reverse).length)
                aparts.length) ((vparts.flatten).reverse) from rfl] at h0
          rw [h0] at this
          simp only [List.length_nil, canonicalSizes_length] at this
          omega
        -- the padded-weight length S0 is the canonical head size
        have hS0 : ((canonicalChunks aparts.length ((vparts.flatten).reverse)).headD
            []).length = (canonicalSizes ((vparts.map List.length).sum)
              aparts.length).headD 0 := by
          rw [← headD_length_map _ hfne, hfsizes]
        have hS0pos : 1 ≤ ((canonicalChunks aparts.length
            ((vparts.flatten).reverse)).headD []).length := by
          rw [hS0]
          exact canonicalSizes_headD_pos _ _ hp hM
        -- the halo width used equals half the padded-weight length
        have hhalo : haloSizeOf (vparts.map List.length)
            = ((canonicalChunks aparts.length ((vparts.flatten).reverse)).headD
                []).length / 2 := by
          rw [haloSizeOf, hcanon, hS0]
        -- per-chunk size bound for the flipped filter chunks
        have hle : ∀ u ∈ canonicalChunks aparts.length ((vparts.flatten).reverse),
            u.length ≤ ((canonicalChunks aparts.length
              ((vparts.flatten).reverse)).headD []).length := by
          intro u hu
          rw [hS0]
          exact canonicalSizes_le_headD _ _ hp u.length
            (hfsizes ▸ List.mem_map_of_mem List.length hu)
        -- each padded weight chunk has length S0 and its gathered row is the
        -- full valid convolution of the global signal with that chunk
        have hrows : ∀ u ∈ canonicalChunks aparts.length ((vparts.flatten).reverse),
            (convParts (List.replicate (((canonicalChunks aparts.length
                ((vparts.flatten).reverse)).headD []).length - u.length) 0 ++ u)
              (((canonicalChunks aparts.length ((vparts.flatten).reverse)).headD
                  []).length % 2 == 0) views).flatten
            = conv1d aparts.flatten
                (List.replicate (((canonicalChunks aparts.length
                  ((vparts.flatten).reverse)).headD []).length - u.length) 0 ++ u) := by
          intro u hu
          have htv : (List.replicate (((canonicalChunks aparts.length
              ((vparts.flatten).reverse)).headD []).length - u.length) 0 ++ u).length
              = ((canonicalChunks aparts.length
                ((vparts.flatten).reverse)).headD []).length := by
            simp only [List.length_append, List.length_replicate]
            have := hle u hu
            omega
          have hg := gather_all (List.replicate (((canonicalChunks aparts.length
              ((vparts.flatten).reverse)).headD []).length - u.length) 0 ++ u)
            (by rw [htv]; exact hS0pos) aparts (fun c hc => by
              have h1 := hkc c hc
              rw [hhalo] at h1
              rw [htv]
              exact h1)
          rw [htv] at hg
          rw [hviews, hhalo]
          exact hg
        -- reduce the single-process side and conclude
        simp only [convolveSingle, List.length_flatten]
        rw [convolveParams_valid_false _ _ _ hMN]
        simp only [Except.ok.injEq, TArr.mk.injEq]
        refine ⟨trivial, ?_⟩
        rw [padList_zero, ← hres, hp2]
        have hrl : ((canonicalChunks aparts.length ((vparts.flatten).reverse)).map
              fun c => List.replicate (((canonicalChunks aparts.length
                ((vparts.flatten).reverse)).headD []).length - c.length) 0 ++ c).map
              (fun tv => (convParts tv (((canonicalChunks aparts.length
                ((vparts.flatten).reverse)).headD []).length % 2 == 0) views).flatten)
            = (canonicalChunks aparts.length ((vparts.flatten).reverse)).map
              fun u => conv1d aparts.flatten
                (List.replicate (((canonicalChunks aparts.length
                  ((vparts.flatten).reverse)).headD []).length - u.length) 0 ++ u) := by
          simp only [List.map_map]
          exact List.map_congr_left fun u hu => hrows u hu
        rw [hrl]
        rw [show (aparts.map List.length).sum - (vparts.map List.length).sum + 1
            = (aparts.flatten).length - ((vparts.flatten).reverse).length + 1 by
          rw [List.length_flatten, hwlen]]
        exact (recombine_eq_conv1d (aparts.flatten) ((vparts.flatten).reverse)
          aparts.length hp (by rw [hwlen]; exact hM)
          (by rw [hwlen, List.length_flatten]; exact hMN)).symm

/-- Claim C1: for every 1-D signal and filter satisfying the preconditions of
`convolve`, for every number of workers and partitioning of the signal (and,
with a distributed filter, the canonical balanced filter partitioning), the
result of `convolve`, gathered in rank order, equals the result of the same
convolution computed in a single process on the same global data.  Stated for
both the replicated-filter path (lines 105-138 and 173-192 of `signal.py`) and
the distributed-filter path (lines 140-172); values are compared exactly, the
element type of the distributed-filter path being settled in claim C10. -/
theorem claim_C1 :
    (∀ (parts : List (List ℤ)) (adt : HType) (v : TArr) (mode : CMode)
        (res : List ℤ) (dt : HType), 1 ≤ v.data.length →
        convolveDist parts adt v mode = .ok (res, dt) →
        convolveSingle ⟨adt, parts.flatten⟩ v mode = .ok ⟨dt, res⟩)
    ∧ (∀ (aparts : List (List ℤ)) (adt : HType) (vparts : List (List ℤ))
        (vdt : HType) (mode : CMode) (res : List ℤ) (dt : HType),
        vparts.map List.length
          = canonicalSizes ((vparts.map List.length).sum) aparts.length →
        1 ≤ (vparts.map List.length).sum →
        convolveDistV aparts adt vparts vdt mode = .ok (res, dt) →
        convolveSingle ⟨adt, aparts.flatten⟩ ⟨vdt, vparts.flatten⟩ mode
          = .ok ⟨promote adt vdt, res⟩) :=
  ⟨fun parts adt v mode res dt hw hout =>
      convolveDist_refines parts adt v mode res dt hw hout,
    fun aparts adt vparts vdt mode res dt hc hm hout =>
      convolveDistV_refines aparts adt vparts vdt mode res dt hc hm hout⟩

/-- Concrete instance of claim C1: a signal of 12 elements split unevenly over
three workers with a replicated filter of length 3, and a signal of 10
elements over two workers with a filter of length 4 split canonically. -/
theorem claim_C1_witness :
    convolveSingle ⟨.int32, [1, 2, 3, 4, 5, 6, 7, 8, 9, 10, 11, 12]⟩
        ⟨.int32, [1, -2, 3]⟩ .full
      = .ok ⟨.int32, [1, 0, 2, 4, 6, 8, 10, 12, 14, 16, 18, 20, 9, 36]⟩
    ∧ convolveSingle ⟨.float32, [1, 2, 3, 4, 5, 6, 7, 8, 9, 10]⟩
        ⟨.float32, [0, 1, 2, 3]⟩ .valid
      = .ok ⟨.float32, [10, 16, 22, 28, 34, 40, 46]⟩ :=
  ⟨claim_C1.1 [[1, 2, 3, 4], [5, 6, 7], [8, 9, 10, 11, 12]] .int32
      ⟨.int32, [1, -2, 3]⟩ .full
      [1, 0, 2, 4, 6, 8, 10, 12, 14, 16, 18, 20, 9, 36] .int32 (by decide) (by rfl),
    claim_C1.2 [[1, 2, 3, 4, 5], [6, 7, 8, 9, 10]] .float32 [[0, 1], [2, 3]]
      .float32 .valid [10, 16, 22, 28, 34, 40, 46] .float64
      (by decide) (by decide) (by rfl)⟩

/-- Claim C2 (code bug): the condition on line 80 of `signal.py`,
`if v.is_distributed() and mode == "full" or mode == "same":`, parses as
`(distributed and full) or same`, so the distribution-policy error is raised
for every `mode='same'` call even when the filter is not distributed — against
the claim, the docstring example for `mode='same'`, and the otherwise dead
even-kernel check and pad computation for `same`.  This theorem evaluates the
code at the failing input (the docstring's own example) and shows the raise
happens for every non-distributed `same` call. -/
theorem claim_C2_bug :
    convolveSingle ⟨.float32, List.replicate 10 1⟩ ⟨.float32, [0, 1, 2]⟩ .same
      = .error (.typeError "Distributed filter weights only supportes valid mode")
    ∧ (∀ (N M halo : ℕ), convolveParams N M false .same halo
        = .error (.typeError "Distributed filter weights only supportes valid mode")) :=
  ⟨rfl, fun _ _ _ => rfl⟩

/-- Claim C5 (code bug): on a single worker,
`convolve(ones(10), arange(3).astype(float), mode='full')` equals the
documented full convolution (length N+M-1 = 12) and `mode='valid'` its
documented truncation (length N-M+1 = 8); but `mode='same'` raises the
misparsed distribution-policy error of line 80 instead of returning the
documented length-10 truncation. -/
theorem claim_C5_eval :
    convolveSingle ⟨.float32, List.replicate 10 1⟩ ⟨.float32, [0, 1, 2]⟩ .full
      = .ok ⟨.float32, [0, 1, 3, 3, 3, 3, 3, 3, 3, 3, 3, 2]⟩
    ∧ convolveSingle ⟨.float32, List.replicate 10 1⟩ ⟨.float32, [0, 1, 2]⟩ .valid
      = .ok ⟨.float32, [3, 3, 3, 3, 3, 3, 3, 3]⟩
    ∧ convolveSingle ⟨.float32, List.replicate 10 1⟩ ⟨.float32, [0, 1, 2]⟩ .same
      = .error (.typeError "Distributed filter weights only supportes valid mode") :=
  ⟨rfl, rfl, rfl⟩

/-- Claim C3, counterexample: a call that performs the halo exchange (it runs
to completion) with a filter of global length 4 distributed canonically over
two workers uses halo width `floor(lshape_map[0][0] / 2) = 1`, not
`floor(M / 2) = 2`. -/
theorem claim_C3_counterexample :
    convolveDistV [[1, 1, 1, 1, 1], [1, 1, 1, 1, 1]] .int32
        [[0, 1], [2, 3]] .int32 .valid = .ok ([6, 6, 6, 6, 6, 6, 6], .float64)
    ∧ haloSizeOf (([[0, 1], [2, 3]] : List (List ℤ)).map List.length) = 1
    ∧ ((([[0, 1], [2, 3]] : List (List ℤ)).map List.length).sum) / 2 = 2
    ∧ (1 : ℕ) ≠ 2 :=
  ⟨rfl, rfl, rfl, by decide⟩

/-- Claim C3, amended: the halo width used by `convolve` is half of entry
`[0][0]` of the filter's lshape map by floor division; it equals
`floor(M / 2)` for the filter's global length `M` exactly when the filter is
not distributed (every rank's lshape entry is `M`), not for every
partitioning of the filter. -/
theorem claim_C3 :
    (∀ (vLshape : List ℕ), haloSizeOf vLshape = vLshape.headD 0 / 2)
    ∧ (∀ (p M : ℕ), 1 ≤ p → haloSizeOf (List.replicate p M) = M / 2) :=
  ⟨fun _ => rfl, fun p M hp => haloSizeOf_replicate p M (by omega)⟩

/-- Concrete instance of the amended claim C3: three workers each holding the
full filter of length 5 give halo width 2. -/
theorem claim_C3_witness : haloSizeOf (List.replicate 3 5) = 5 / 2 :=
  claim_C3.2 3 5 (by decide)

theorem distVDtype_eq_float64 (p : ℕ) (hp : 1 ≤ p) : distVDtype p = .float64 := by
  have haux : ∀ q, (List.replicate q HType.float32).foldl promote .float64
      = .float64 := by
    intro q
    induction q with
    | zero => rfl
    | succ q ih => simpa [List.replicate_succ, List.foldl_cons] using ih
  cases p with
  | zero => omega
  | succ p =>
    unfold distVDtype
    rw [List.replicate_succ, List.foldl_cons]
    exact haux p

theorem convolveSingle_dtype (a v : TArr) (mode : CMode) (out : TArr)
    (h : convolveSingle a v mode = .ok out) :
    out.dtype = promote a.dtype v.dtype := by
  simp only [convolveSingle] at h
  split at h
  · exact absurd h (by simp)
  · simp only [Except.ok.injEq] at h
    rw [← h]

theorem convolveDist_dtype (parts : List (List ℤ)) (adt : HType) (v : TArr)
    (mode : CMode) (res : List ℤ) (dt : HType)
    (h : convolveDist parts adt v mode = .ok (res, dt)) :
    dt = promote adt v.dtype := by
  simp only [convolveDist] at h
  split at h
  · exact absurd h (by simp)
  · split at h
    · exact absurd h (by simp)
    · split at h
      · exact absurd h (by simp)
      · simp only [Except.ok.injEq, Prod.mk.injEq] at h
        exact h.2.symm

theorem convolveDistV_dtype (aparts : List (List ℤ)) (adt : HType)
    (vparts : List (List ℤ)) (vdt : HType) (mode : CMode) (res : List ℤ)
    (dt : HType) (h : convolveDistV aparts adt vparts vdt mode = .ok (res, dt)) :
    dt = distVDtype aparts.length := by
  simp only [convolveDistV] at h
  split at h
  · exact absurd h (by simp)
  · split at h
    · exact absurd h (by simp)
    · split at h
      · exact absurd h (by simp)
      · simp only [Except.ok.injEq, Prod.mk.injEq] at h
        exact h.2.symm

/-- Claim C10, counterexample: in the distributed-filter path the row buffers
are created by `torch.zeros` without a dtype (line 145 of `signal.py`), i.e.
`float32`, and the accumulator `array(0)` is an `int64` scalar, so the result
element type is their promotion `float64` regardless of the operands: two
`float32` operands yield a `float64` result, not the promoted `float32`. -/
theorem claim_C10_counterexample :
    convolveDistV [[1, 2, 3, 4, 5], [6, 7, 8, 9, 10]] .float32
        [[0, 1], [2, 3]] .float32 .valid
      = .ok ([10, 16, 22, 28, 34, 40, 46], .float64)
    ∧ promote .float32 .float32 = .float32
    ∧ HType.float64 ≠ HType.float32 :=
  ⟨rfl, rfl, by decide⟩

/-- Claim C10, amended: the element type of `convolve`'s result equals the
promoted common type of the operands' types in the single-process path and in
the distributed-signal path with a non-distributed filter; the
distributed-filter path instead always returns the `float64` promotion of its
`int64` accumulator with its `float32` row buffers, regardless of the
operands' types. -/
theorem claim_C10 :
    (∀ (a v : TArr) (mode : CMode) (out : TArr),
      convolveSingle a v mode = .ok out → out.dtype = promote a.dtype v.dtype)
    ∧ (∀ (parts : List (List ℤ)) (adt : HType) (v : TArr) (mode : CMode)
        (res : List ℤ) (dt : HType),
      convolveDist parts adt v mode = .ok (res, dt) → dt = promote adt v.dtype)
    ∧ (∀ (aparts : List (List ℤ)) (adt : HType) (vparts : List (List ℤ))
        (vdt : HType) (mode : CMode) (res : List ℤ) (dt : HType),
      convolveDistV aparts adt vparts vdt mode = .ok (res, dt) →
        dt = distVDtype aparts.length ∧ (1 ≤ aparts.length → dt = .float64)) :=
  ⟨convolveSingle_dtype,
    convolveDist_dtype,
    fun aparts adt vparts vdt mode res dt h =>
      ⟨convolveDistV_dtype aparts adt vparts vdt mode res dt h,
        fun hp => by
          rw [convolveDistV_dtype aparts adt vparts vdt mode res dt h]
          exact distVDtype_eq_float64 _ hp⟩⟩

/-- Concrete instance of the amended claim C10: an `int32` signal with an
`int64` filter on one process yields an `int64` result, and a two-worker
distributed-filter call yields `float64`. -/
theorem claim_C10_witness :
    (⟨.int64, [5, 10, 15]⟩ : TArr).dtype = promote .int32 .int64
    ∧ HType.float64 = distVDtype 2 :=
  ⟨claim_C10.1 ⟨.int32, [1, 2, 3]⟩ ⟨.int64, [5]⟩ .full ⟨.int64, [5, 10, 15]⟩ rfl,
    (claim_C10.2.2 [[1, 2, 3, 4, 5], [6, 7, 8, 9, 10]] .float32 [[0, 1], [2, 3]]
        .float32 .valid [10, 16, 22, 28, 34, 40, 46] .float64 rfl).1.symm ▸ rfl⟩


/-- Claim C4: `diff` with a negative order raises a value error immediately
with no communication performed, and `diff(a, 0, axis)` returns the input
itself unchanged, by reference (the flag records that the returned object is
the very input), both before the axis is even inspected. -/
theorem claim_C4 : ∀ (cs : List (List ℤ)) (n axis : ℤ),
    (n < 0 → diffD cs n axis
      = (0, .error (.valueError "diff requires that n be a positive number")))
    ∧ diffD cs 0 axis = (0, .ok (true, cs)) := by
  intro cs n axis
  constructor
  · intro hn
    simp only [diffD, if_neg (by omega : ¬ n = 0), if_pos hn]
  · simp [diffD]

/-- Concrete instance of claim C4 at order `-3` and order `0`. -/
theorem claim_C4_witness :
    diffD [[1, 2, 3]] (-3) 0
      = (0, .error (.valueError "diff requires that n be a positive number"))
    ∧ diffD [[1, 2, 3]] 0 (-1) = (0, .ok (true, [[1, 2, 3]])) :=
  ⟨(claim_C4 [[1, 2, 3]] (-3) 0).1 (by decide), (claim_C4 [[1, 2, 3]] 0 (-1)).2⟩

theorem seqDiffOnce_cons_cons (a b : ℤ) (t : List ℤ) :
    seqDiffOnce (a :: b :: t) = (b - a) :: seqDiffOnce (b :: t) := rfl

theorem seqDiffOnce_length (l : List ℤ) : (seqDiffOnce l).length = l.length - 1 := by
  simp [seqDiffOnce]

theorem glast_cons (x : ℤ) (l : List ℤ) (h : l ≠ []) : glast (x :: l) = glast l := by
  cases l with
  | nil => exact absurd rfl h
  | cons y t => rfl

theorem glast_append (c m : List ℤ) (h : m ≠ []) : glast (c ++ m) = glast m := by
  induction c with
  | nil => rfl
  | cons x c ih =>
    rw [List.cons_append, glast_cons _ _ (by
      intro h0
      exact h (List.append_eq_nil.mp h0).2), ih]

theorem gfirst_append (c m : List ℤ) (h : c ≠ []) : gfirst (c ++ m) = gfirst c := by
  cases c with
  | nil => exact absurd rfl h
  | cons x t => rfl

theorem seqDiffOnce_append (c m : List ℤ) (hc : c ≠ []) (hm : m ≠ []) :
    seqDiffOnce (c ++ m) = seqDiffOnce c ++ (gfirst m - glast c) :: seqDiffOnce m := by
  induction c with
  | nil => exact absurd rfl hc
  | cons x c ih =>
    cases c with
    | nil =>
      cases m with
      | nil => exact absurd rfl hm
      | cons y t => simp [seqDiffOnce, gfirst, glast]
    | cons z c' =>
      have h1 : glast (x :: z :: c') = glast (z :: c') := glast_cons _ _ (by simp)
      have h2 := ih (by simp)
      rw [List.cons_append] at h2
      rw [List.cons_append, List.cons_append, seqDiffOnce_cons_cons, h2,
        seqDiffOnce_cons_cons, h1]
      simp

theorem chunkPass_flatten (cs : List (List ℤ)) (hne : cs ≠ [])
    (hc : ∀ c ∈ cs, c ≠ []) : (chunkPass cs).flatten = gpass cs.flatten := by
  induction cs with
  | nil => exact absurd rfl hne
  | cons c cs ih =>
    cases cs with
    | nil => simp [chunkPass, gpass]
    | cons c' rest =>
      have hc0 : c ≠ [] := hc c (by simp)
      have hc' : c' ≠ [] := hc c' (by simp)
      have hm : (c' :: rest).flatten ≠ [] := by
        simp only [List.flatten_cons]
        intro h0
        exact hc' (List.append_eq_nil.mp h0).1
      rw [List.flatten_cons] at hm
      simp only [chunkPass, List.flatten_cons, gpass,
        ih (by simp) (fun d hd => hc d (by simp [hd]))]
      rw [seqDiffOnce_append c _ hc0 hm, glast_append c _ hm,
        gfirst_append c' _ hc']
      simp

theorem chunkPass_map_length (cs : List (List ℤ)) (hc : ∀ c ∈ cs, c ≠ []) :
    (chunkPass cs).map List.length = cs.map List.length := by
  induction cs with
  | nil => rfl
  | cons c cs ih =>
    have hc0 : c ≠ [] := hc c (by simp)
    have hlen : (seqDiffOnce c).length + 1 = c.length := by
      rw [seqDiffOnce_length]
      have : c.length ≠ 0 := fun h0 => hc0 (List.length_eq_zero.mp h0)
      omega
    cases cs with
    | nil => simp [chunkPass, hlen]
    | cons c' rest =>
      simp only [chunkPass, List.map_cons, List.length_append, List.length_cons,
        List.length_nil]
      rw [ih (fun d hd => hc d (by simp [hd]))]
      simp only [List.map_cons, List.cons.injEq]
      exact ⟨by omega, trivial⟩

theorem chunkPass_iter (n : ℕ) (cs : List (List ℤ)) (hne : cs ≠ [])
    (hc : ∀ c ∈ cs, c ≠ []) :
    (chunkPass^[n] cs).flatten = gpass^[n] cs.flatten
      ∧ (chunkPass^[n] cs).map List.length = cs.map List.length := by
  induction n with
  | zero => exact ⟨rfl, rfl⟩
  | succ n ih =>
    obtain ⟨ihf, ihl⟩ := ih
    have hne' : chunkPass^[n] cs ≠ [] := by
      intro h0
      rw [h0] at ihl
      cases cs with
      | nil => exact hne rfl
      | cons d ds => simp at ihl
    have hc' : ∀ c ∈ chunkPass^[n] cs, c ≠ [] := by
      intro c hcn h0
      have h1 : (0 : ℕ) ∈ cs.map List.length := by
        rw [← ihl]
        rw [← List.length_eq_zero.mpr h0]
        exact List.mem_map_of_mem List.length hcn
      obtain ⟨d, hd, hd0⟩ := List.mem_map.mp h1
      exact hc d hd (List.length_eq_zero.mp hd0)
    rw [Function.iterate_succ_apply', Function.iterate_succ_apply']
    exact ⟨by rw [chunkPass_flatten _ hne' hc', ihf],
      by rw [chunkPass_map_length _ hc', ihl]⟩

theorem seqDiff_zero (l : List ℤ) : seqDiff 0 l = l := rfl

theorem seqDiff_succ (n : ℕ) (l : List ℤ) :
    seqDiff (n + 1) l = seqDiff n (seqDiffOnce l) :=
  Function.iterate_succ_apply seqDiffOnce n l

theorem seqDiff_length (n : ℕ) (l : List ℤ) :
    (seqDiff n l).length = l.length - n := by
  induction n generalizing l with
  | zero => simp [seqDiff]
  | succ n ih =>
    rw [seqDiff_succ, ih, seqDiffOnce_length]
    omega

theorem zipWith_take_absorb (u v : List ℤ) (k : ℕ) (hu : u.length ≤ k) :
    List.zipWith (· - ·) u (v.take k) = List.zipWith (· - ·) u v := by
  induction u generalizing v k with
  | nil => simp
  | cons x u ih =>
    cases v with
    | nil => simp
    | cons y v =>
      cases k with
      | zero => simp at hu
      | succ k =>
        simp only [List.take_succ_cons, List.zipWith_cons_cons]
        rw [ih v k (by simp at hu; omega)]

theorem seqDiffOnce_take (l : List ℤ) (m : ℕ) :
    seqDiffOnce (l.take m) = (seqDiffOnce l).take (m - 1) := by
  unfold seqDiffOnce
  rw [List.take_zipWith]
  rw [show (l.take m).drop 1 = (l.drop 1).take (m - 1) from by rw [List.drop_take]]
  rw [zipWith_take_absorb _ _ _ (by simp), zipWith_take_absorb _ _ _ (by simp)]

theorem seqDiff_take_congr : ∀ (n : ℕ) (a b : List ℤ) (m : ℕ),
    a.take (m + n) = b.take (m + n) →
    (seqDiff n a).take m = (seqDiff n b).take m := by
  intro n
  induction n with
  | zero =>
    intro a b m h
    simpa [seqDiff] using h
  | succ n ih =>
    intro a b m h
    rw [seqDiff_succ, seqDiff_succ]
    refine ih (seqDiffOnce a) (seqDiffOnce b) m ?_
    rw [show m + n = (m + (n + 1)) - 1 from by omega, ← seqDiffOnce_take,
      ← seqDiffOnce_take, h]

theorem passesW_take_congr : ∀ (js : List ℤ) (l : List ℤ) (m : ℕ),
    m + js.length ≤ l.length →
    (passesW js l).take m = (seqDiff js.length l).take m := by
  intro js
  induction js with
  | nil =>
    intro l m _
    rfl
  | cons j js ih =>
    intro l m hm
    have hl : l ≠ [] := by
      intro h0
      rw [h0] at hm
      simp at hm
    have hlen : (passW j l).length = l.length := by
      simp only [passW, List.length_append, seqDiffOnce_length, List.length_cons,
        List.length_nil]
      have : l.length ≠ 0 := fun h0 => hl (List.length_eq_zero.mp h0)
      omega
    simp only [passesW]
    rw [ih (passW j l) m (by rw [hlen]; simp at hm; omega)]
    rw [show seqDiff (j :: js).length l = seqDiff js.length (seqDiffOnce l) from by
      simp only [List.length_cons]
      exact seqDiff_succ js.length l]
    refine seqDiff_take_congr js.length (passW j l) (seqDiffOnce l) m ?_
    unfold passW
    rw [List.take_append_eq_append_take]
    have hd : m + js.length - (seqDiffOnce l).length = 0 := by
      rw [seqDiffOnce_length]
      simp only [List.length_cons] at hm
      omega
    rw [hd]
    simp

theorem passesW_take (js : List ℤ) (l : List ℤ) (h : js.length ≤ l.length) :
    (passesW js l).take (l.length - js.length) = seqDiff js.length l := by
  rw [passesW_take_congr js l (l.length - js.length) (by omega)]
  rw [List.take_of_length_le (le_of_eq (seqDiff_length js.length l))]

theorem gpass_iter_passesW : ∀ (n : ℕ) (l : List ℤ),
    ∃ js : List ℤ, js.length = n ∧ gpass^[n] l = passesW js l := by
  intro n
  induction n with
  | zero => exact fun l => ⟨[], rfl, rfl⟩
  | succ n ih =>
    intro l
    obtain ⟨js, hlen, hjs⟩ := ih (gpass l)
    exact ⟨glast l :: js, by simp [hlen], by
      rw [Function.iterate_succ_apply, hjs]
      rfl⟩

theorem gpass_iter_take (n : ℕ) (l : List ℤ) (h : n ≤ l.length) :
    (gpass^[n] l).take (l.length - n) = seqDiff n l := by
  obtain ⟨js, hlen, hjs⟩ := gpass_iter_passesW n l
  rw [hjs, ← hlen]
  exact passesW_take js l (by omega)

theorem canonicalSizes_pos (N p : ℕ) (hp : 1 ≤ p) (hN : p ≤ N) :
    ∀ s ∈ canonicalSizes N p, 1 ≤ s := by
  intro s hs
  simp only [canonicalSizes, List.mem_map, List.mem_range] at hs
  obtain ⟨r, _, rfl⟩ := hs
  have h1 : 1 ≤ N / p := (Nat.one_le_div_iff (by omega)).mpr hN
  split_ifs <;> omega

theorem canonicalChunks_ne_nil (p : ℕ) (l : List ℤ) (hp : 1 ≤ p)
    (hN : p ≤ l.length) : ∀ c ∈ canonicalChunks p l, c ≠ [] := by
  intro c hc h0
  have h1 : (0 : ℕ) ∈ (canonicalChunks p l).map List.length := by
    rw [← List.length_eq_zero.mpr h0]
    exact List.mem_map_of_mem List.length hc
  rw [canonicalChunks_map_length p l hp] at h1
  have := canonicalSizes_pos l.length p hp hN 0 h1
  omega

theorem canonicalChunks_length (p : ℕ) (l : List ℤ) :
    (canonicalChunks p l).length = p := by
  unfold canonicalChunks
  rw [splitBySizes_length, canonicalSizes_length]

theorem flatten_ne_nil (cs : List (List ℤ)) (c : List ℤ) (hc : c ∈ cs)
    (hne : c ≠ []) : cs.flatten ≠ [] := by
  intro h0
  rw [List.flatten_eq_nil_iff] at h0
  exact hne (h0 c hc)

theorem distDiffChunks_eq (n : ℕ) (cs : List (List ℤ)) (hne : cs ≠ [])
    (hc : ∀ c ∈ cs, c ≠ []) (hn : n ≤ (cs.flatten).length) :
    distDiffChunks n cs = canonicalChunks cs.length (seqDiff n cs.flatten) := by
  unfold distDiffChunks
  rw [(chunkPass_iter n cs hne hc).1, gpass_iter_take n cs.flatten hn]

theorem seqDiff_comp (x : List ℤ) : seqDiff 1 (seqDiff 1 x) = seqDiff 2 x :=
  (Function.iterate_add_apply seqDiffOnce 1 1 x).symm

theorem diffD_pos_eq (cs : List (List ℤ)) (axis : ℤ) (n : ℤ) (hn : 0 < n)
    (hax : sanitizeAxis 1 axis = .ok 0) :
    diffD cs n axis = if cs.length ≤ 1 then (0, .ok (false, cs.map (seqDiff n.toNat)))
      else ((cs.length - 1) * n.toNat, .ok (false, distDiffChunks n.toNat cs)) := by
  simp only [diffD, if_neg (by omega : ¬ n = 0), if_neg (by omega : ¬ n < 0), hax]

/-- Claim C6: `diff(diff(a, 1, axis), 1, axis)` equals `diff(a, 2, axis)`, for
both distributed and non-distributed layouts.  The first part states it for
the code path where the differenced axis is the split axis (chunked fibers,
including the single-chunk non-distributed case); the second part states the
underlying per-fiber fact for the layout where the differenced axis is not the
split axis: there the reconciliation writes a received value from another
rank's fiber into the trailing position, and the trimmed composition equals
the trimmed second difference for arbitrary received values. -/
theorem claim_C6 :
    (∀ (cs : List (List ℤ)) (axis : ℤ), sanitizeAxis 1 axis = .ok 0 →
      (2 ≤ cs.length → (∀ c ∈ cs, c ≠ []) ∧ cs.length + 1 ≤ (cs.flatten).length) →
      ((diffD cs 1 axis).2.bind fun r => (diffD r.2 1 axis).2) = (diffD cs 2 axis).2)
    ∧ (∀ (l : List ℤ) (j₁ j₂ j₃ j₄ : ℤ), 2 ≤ l.length →
      (passesW [j₂] ((passesW [j₁] l).take (l.length - 1))).take (l.length - 2)
        = (passesW [j₃, j₄] l).take (l.length - 2)) := by
  constructor
  · intro cs axis hax hcond
    rw [diffD_pos_eq cs axis 1 (by omega) hax, diffD_pos_eq cs axis 2 (by omega) hax]
    simp only [show ((1 : ℤ)).toNat = 1 from rfl, show ((2 : ℤ)).toNat = 2 from rfl]
    by_cases hp : cs.length ≤ 1
    · rw [if_pos hp, if_pos hp]
      simp only [Except.bind]
      rw [diffD_pos_eq _ axis 1 (by omega) hax,
        if_pos (by rw [List.length_map]; exact hp)]
      simp only [show ((1 : ℤ)).toNat = 1 from rfl]
      have hmap : (cs.map (seqDiff 1)).map (seqDiff 1) = cs.map (seqDiff 2) := by
        rw [List.map_map]
        exact List.map_congr_left fun x _ => seqDiff_comp x
      rw [hmap]
    · obtain ⟨hcne, hN⟩ := hcond (by omega)
      have hnnil : cs ≠ [] := by
        intro h0
        rw [h0] at hp
        simp at hp
      rw [if_neg hp, if_neg hp]
      simp only [Except.bind]
      rw [diffD_pos_eq _ axis 1 (by omega) hax]
      simp only [show ((1 : ℤ)).toNat = 1 from rfl]
      have h1 : distDiffChunks 1 cs
          = canonicalChunks cs.length (seqDiff 1 cs.flatten) :=
        distDiffChunks_eq 1 cs hnnil hcne (by omega)
      have hlen1 : (distDiffChunks 1 cs).length = cs.length := by
        rw [h1, canonicalChunks_length]
      rw [if_neg (by rw [hlen1]; exact hp)]
      have hlenD : (seqDiff 1 cs.flatten).length = (cs.flatten).length - 1 :=
        seqDiff_length 1 cs.flatten
      have hcne1 : ∀ c ∈ distDiffChunks 1 cs, c ≠ [] := by
        rw [h1]
        exact canonicalChunks_ne_nil _ _ (by omega) (by rw [hlenD]; omega)
      have h2 : distDiffChunks 1 (distDiffChunks 1 cs)
          = canonicalChunks cs.length (seqDiff 2 cs.flatten) := by
        rw [distDiffChunks_eq 1 (distDiffChunks 1 cs)
          (by
            intro h0
            rw [h0] at hlen1
            simp only [List.length_nil] at hlen1
            omega)
          hcne1
          (by
            rw [h1, canonicalChunks_flatten _ _ (by omega), hlenD]
            omega)]
        rw [hlen1, h1, canonicalChunks_flatten _ _ (by omega), seqDiff_comp]
      rw [h2, distDiffChunks_eq 2 cs hnnil hcne (by omega)]
  · intro l j₁ j₂ j₃ j₄ hl
    have hinner : (passesW [j₁] l).take (l.length - 1) = seqDiff 1 l :=
      passesW_take [j₁] l (by simp only [List.length_cons, List.length_nil]; omega)
    have hlen1 : (seqDiff 1 l).length = l.length - 1 := seqDiff_length 1 l
    have houter : (passesW [j₂] (seqDiff 1 l)).take ((seqDiff 1 l).length - 1)
        = seqDiff 1 (seqDiff 1 l) :=
      passesW_take [j₂] (seqDiff 1 l)
        (by simp only [List.length_cons, List.length_nil]; omega)
    rw [hlen1] at houter
    have hrhs : (passesW [j₃, j₄] l).take (l.length - 2) = seqDiff 2 l :=
      passesW_take [j₃, j₄] l (by simp only [List.length_cons, List.length_nil]; omega)
    rw [hinner, show l.length - 2 = l.length - 1 - 1 from by omega, houter,
      seqDiff_comp, show l.length - 1 - 1 = l.length - 2 from by omega, hrhs]

/-- Concrete instance of claim C6: a three-worker distributed array of twelve
elements, and an arbitrary-junk fiber of length four. -/
theorem claim_C6_witness :
    ((diffD [[1, 5, 2, 8], [3, 9, 4], [7, 6, 1, 2, 3]] 1 0).2.bind
        fun r => (diffD r.2 1 0).2)
      = (diffD [[1, 5, 2, 8], [3, 9, 4], [7, 6, 1, 2, 3]] 2 0).2
    ∧ (passesW [(11 : ℤ)] ((passesW [(7 : ℤ)] [4, 9, 1, 6]).take 3)).take 2
      = (passesW [(5 : ℤ), 13] [4, 9, 1, 6]).take 2 :=
  ⟨claim_C6.1 [[1, 5, 2, 8], [3, 9, 4], [7, 6, 1, 2, 3]] 0 (by rfl)
      (fun _ => ⟨by decide, by decide⟩),
    claim_C6.2 [4, 9, 1, 6] 7 11 5 13 (by decide)⟩


/-- Claim C7: `sum` and `prod` are total on every distribution, including ones
with empty local partitions: an empty rank contributes the neutral element
(0 for sum, 1 for prod), and the global result always equals the
single-process reduction of the concatenated global data. -/
theorem claim_C7 :
    (∀ cs : List (List ℤ), reduceOpSum cs = (cs.flatten).sum)
    ∧ (∀ cs : List (List ℤ), reduceOpProd cs = (cs.flatten).prod)
    ∧ localReduceSum [] = 0 ∧ localReduceProd [] = 1 := by
  refine ⟨?_, ?_, rfl, rfl⟩
  · intro cs
    unfold reduceOpSum
    rw [List.sum_flatten]
    congr 1
    refine List.map_congr_left fun c _ => ?_
    unfold localReduceSum
    split_ifs with h
    · rw [List.isEmpty_iff.mp h]
      rfl
    · rfl
  · intro cs
    unfold reduceOpProd
    rw [List.prod_flatten]
    congr 1
    refine List.map_congr_left fun c _ => ?_
    unfold localReduceProd
    split_ifs with h
    · rw [List.isEmpty_iff.mp h]
      rfl
    · rfl


/-- Claim C9: whenever at least one operand's element type is a floating
(inexact) type, each bitwise operation (`bitwise_and`, `bitwise_or`,
`bitwise_xor`, `left_shift`, `right_shift`, `invert`) raises a type error, and
does so before any communication is performed (zero messages sent). -/
theorem claim_C9 :
    (∀ t1 t2 : HType, (t1.isInexact || t2.isInexact) = true →
      bitwise_and t1 t2
          = (0, .error (.typeError "Operation is not supported for float types"))
        ∧ bitwise_or t1 t2
          = (0, .error (.typeError "Operation is not supported for float types"))
        ∧ bitwise_xor t1 t2
          = (0, .error (.typeError "Operation is not supported for float types"))
        ∧ left_shift t1 t2
          = (0, .error (.typeError "Operation is not supported for float types"))
        ∧ right_shift t1 t2
          = (0, .error (.typeError "Operation is supported for integer types only")))
    ∧ (∀ t : HType, t.isInexact = true →
        invert t
          = (0, .error (.typeError "Operation is not supported for float types"))) := by
  constructor
  · intro t1 t2 h
    have h' : (!t1.isExact || !t2.isExact) = true := by
      cases t1 <;> cases t2 <;> simp_all [HType.isExact, HType.isInexact]
    exact ⟨by unfold bitwise_and; rw [if_pos h],
      by unfold bitwise_or; rw [if_pos h],
      by unfold bitwise_xor; rw [if_pos h],
      by unfold left_shift; rw [if_pos h],
      by unfold right_shift; rw [if_pos h']⟩
  · intro t h
    unfold invert
    rw [if_pos h]

/-- Concrete instance of claim C9 at a float operand. -/
theorem claim_C9_witness :
    bitwise_and .float32 .int32
      = (0, .error (.typeError "Operation is not supported for float types"))
    ∧ invert .float64
      = (0, .error (.typeError "Operation is not supported for float types")) :=
  ⟨(claim_C9.1 .float32 .int32 (by decide)).1, claim_C9.2 .float64 (by decide)⟩

theorem getHalo_err (k : ℕ) (cs : List (List ℤ)) (h : ∃ c ∈ cs, c.length < k) :
    getHalo k cs
      = (0, .error (.valueError "halo size larger than local partition size")) := by
  unfold getHalo
  rw [if_pos]
  obtain ⟨c, hc, hlt⟩ := h
  exact List.any_eq_true.mpr ⟨c, hc, by simpa using hlt⟩


theorem takeEnd_length_le (c : List ℤ) (k : ℕ) : (takeEnd k c).length ≤ k := by
  simp only [takeEnd, List.length_drop]
  omega

theorem haloViews_getD (k : ℕ) :
    ∀ (cs : List (List ℤ)) (c₀? : Option (List ℤ)) (r : ℕ), r < cs.length →
      (haloViews k c₀? cs).getD r []
        = takeEnd k (match r with | 0 => c₀?.getD [] | r' + 1 => cs.getD r' [])
            ++ cs.getD r [] ++ (cs.getD (r + 1) []).take k := by
  intro cs
  induction cs with
  | nil =>
    intro c₀? r hr
    simp at hr
  | cons c cs ih =>
    intro c₀? r hr
    cases cs with
    | nil =>
      cases r with
      | zero =>
        cases c₀? with
        | none => simp [haloViews, takeEnd]
        | some c₀ => simp [haloViews]
      | succ r => simp at hr
    | cons c' rest =>
      cases r with
      | zero =>
        cases c₀? with
        | none => simp [haloViews, takeEnd]
        | some c₀ => simp [haloViews]
      | succ r =>
        have hr' : r < (c' :: rest).length := by
          simp only [List.length_cons] at hr ⊢
          omega
        have hih := ih (some c) r hr'
        cases c₀? with
        | none =>
          simp only [haloViews, List.getD_cons_succ]
          rw [hih]
          cases r <;> rfl
        | some c₀ =>
          simp only [haloViews, List.getD_cons_succ]
          rw [hih]
          cases r <;> rfl

/-- Claim C8: if any rank's local signal extent is smaller than the requested
halo width, the halo exchange raises a failure having sent zero messages
(`convolve` propagates it, shown for the distributed-filter branch where the
line-108 guard does not already imply the bound); when every extent is at
least the halo width, each rank's array-with-halo view extends its local chunk
by at most `k` elements taken from each immediate neighbour's boundary — the
exchange never reads more than the halo width past a local boundary. -/
theorem claim_C8 :
    (∀ (k : ℕ) (cs : List (List ℤ)), (∃ c ∈ cs, c.length < k) →
      getHalo k cs
        = (0, .error (.valueError "halo size larger than local partition size")))
    ∧ (∀ (aparts : List (List ℤ)) (adt : HType) (vparts : List (List ℤ))
        (vdt : HType) (mode : CMode) (pad gsh : ℕ),
        convolveParams ((aparts.map List.length).sum) ((vparts.map List.length).sum)
            true mode (haloSizeOf (vparts.map List.length)) = .ok (pad, gsh) →
        (∃ c ∈ padChunks pad aparts,
          c.length < haloSizeOf (vparts.map List.length)) →
        ∃ err, convolveDistV aparts adt vparts vdt mode = .error err)
    ∧ (∀ (k : ℕ) (cs : List (List ℤ)), (∀ c ∈ cs, k ≤ c.length) →
        ∀ r, r < cs.length →
          (haloViews k none cs).getD r []
            = takeEnd k (prevChunk cs r) ++ cs.getD r []
                ++ (nextChunk cs r).take k
          ∧ (takeEnd k (prevChunk cs r)).length ≤ k
          ∧ ((nextChunk cs r).take k).length ≤ k) := by
  refine ⟨getHalo_err, ?_, ?_⟩
  · intro aparts adt vparts vdt mode pad gsh heq hex
    simp only [convolveDistV, heq]
    cases hB : lshapeAnyGt (vparts.map List.length)
        ((padChunks pad aparts).map List.length) with
    | true =>
      refine ⟨.valueError
        "Local chunk of filter weight is larger than the local chunks of signal", ?_⟩
      simp
    | false =>
      refine ⟨.valueError "halo size larger than local partition size", ?_⟩
      simp only [Bool.false_eq_true, if_false]
      rw [show (getHalo (haloSizeOf (vparts.map List.length))
          (padChunks pad aparts)).2
          = .error (.valueError "halo size larger than local partition size") from by
        rw [getHalo_err _ _ hex]]
  · intro k cs hcs r hr
    refine ⟨?_, takeEnd_length_le _ _, le_trans (List.length_take_le _ _) le_rfl⟩
    have := haloViews_getD k cs none r hr
    rw [this]
    cases r <;> rfl

/-- Concrete instance of claim C8: a halo of width 3 against a rank holding
only 2 elements raises with zero messages sent, and with sufficient extents
the middle rank's view borrows at most `k` boundary elements. -/
theorem claim_C8_witness :
    getHalo 3 [[1, 2], [3, 4, 5, 6]]
      = (0, .error (.valueError "halo size larger than local partition size"))
    ∧ (haloViews 2 none [[1, 2, 3], [4, 5, 6, 7]]).getD 1 []
        = takeEnd 2 (prevChunk [[1, 2, 3], [4, 5, 6, 7]] 1) ++ [4, 5, 6, 7]
            ++ (nextChunk [[1, 2, 3], [4, 5, 6, 7]] 1).take 2 :=
  ⟨claim_C8.1 3 [[1, 2], [3, 4, 5, 6]] ⟨[1, 2], by decide, by decide⟩,
    (claim_C8.2.2 2 [[1, 2, 3], [4, 5, 6, 7]] (by decide) 1 (by decide)).1⟩

end Heat
